import Mathlib

/-!
Verification development for the Robolocust (LoBot) DAMN arbitration
subsystem.  The repository ships only the header files of the control
core (LoArbiter.H, LoSpeedArbiter.H, LoSpinArbiter.H, LoTurnArbiter.H,
LoBehavior.H); the method bodies live in .C files that are not part of
the source tree here.  Consequently the operational definitions below
are modelled from the specification text (section references are to
spec.md), staying faithful to the header declarations and their
documentation comments.  Floating point values are embedded as
rationals.
-/

namespace LoBot

/-! ## Freeze state machine (spec 4.2; LoArbiter.H m_freezer / m_freeze_priority)

The header keeps a single `m_freezer` string and one `m_freeze_priority`
float.  The spec describes the state machine: states are UNFROZEN or
FROZEN(by, threshold); `freeze(name)` moves UNFROZEN to
FROZEN(name, priority(name)) and is an idempotent self-loop when the
same name already holds the freeze (a second distinct freezer is left
unspecified by the contract, so the model keeps the current holder);
`unfreeze(name)` clears the freeze only when held by that exact name,
otherwise it is a no-op self-loop. -/

/-- Modelled from the spec: the freeze state of one arbiter.  `none` is
UNFROZEN; `some (by, threshold)` is FROZEN with the holding behaviour
name and the freeze-priority threshold.  The single mutable
(name, threshold) pair of the header is embedded as this option. -/
abbrev FreezeState := Option (String × ℚ)

/-- Modelled from the spec: `Arbiter::freeze` (declared in LoArbiter.H,
body missing).  Sets the frozen state using the priority of the named
behaviour as the freeze threshold; idempotent when the holder repeats
the call; keeps the current holder when a distinct behaviour attempts
to stack a second freeze (the contract leaves stacking unspecified). -/
def freeze (pr : String → ℚ) (fs : FreezeState) (name : String) : FreezeState :=
  match fs with
  | none => some (name, pr name)
  | some (holder, thr) =>
      if holder = name then some (name, pr name) else some (holder, thr)

/-- Modelled from the spec: `Arbiter::unfreeze` (declared in
LoArbiter.H, body missing).  Clears the freeze only when currently held
by that exact name; otherwise a no-op. -/
def unfreeze (fs : FreezeState) (name : String) : FreezeState :=
  match fs with
  | none => none
  | some (holder, thr) => if holder = name then none else some (holder, thr)

/-- Modelled from the spec: `Arbiter::is_frozen` (declared in
LoArbiter.H, body missing).  True exactly when the named behaviour
currently holds the freeze. -/
def is_frozen (fs : FreezeState) (name : String) : Bool :=
  match fs with
  | none => false
  | some (holder, _) => holder = name

/-- Modelled from the spec: the freeze filter applied by the tally step
of `Arbiter::run` (body missing).  When frozen, votes cast by
behaviours whose priority is strictly less than the freeze threshold
are dropped; when unfrozen all votes are kept.  A vote envelope is
embedded as a (behaviour name, payload) pair. -/
def filter_votes {α : Type} (pr : String → ℚ) (fs : FreezeState)
    (votes : List (String × α)) : List (String × α) :=
  match fs with
  | none => votes
  | some (_, thr) => votes.filter (fun w => decide (thr ≤ pr w.1))

/-! ## Vote inbox and tally cycles (spec 4.2, 5; LoArbiter.H m_votes / vote / run)

The header documents that `Arbiter::vote` appends a vote envelope to the
shared inbox under a mutex and that the main loop of `Arbiter::run`
(body missing) atomically swaps the inbox contents into a private local
list, clears the shared inbox, tallies the local list, and repeats.
Because each critical section is atomic, the concurrent history of one
arbiter is embedded as a sequence of atomic events: a behaviour casting
a vote, or the arbiter taking its tally snapshot. -/

/-- Modelled from the spec: one atomic event in the history of an
arbiter.  `cast name v` is a behaviour calling `vote(name, v)`;
`snapshot` is the tally step of `Arbiter::run` swapping out the inbox
for one cycle. -/
inductive AEvent (α : Type) : Type where
  | cast : String → α → AEvent α
  | snapshot : AEvent α
deriving DecidableEq

/-- Modelled from the spec: replay a history of events starting from
the given inbox contents, producing the per-cycle tallied lists.  Each
`snapshot` event emits the inbox gathered so far as the list tallied in
that cycle and clears the shared inbox. -/
def run_trace {α : Type} : List (AEvent α) → List (String × α) → List (List (String × α))
  | [], _ => []
  | AEvent.cast n v :: es, inbox => run_trace es (inbox ++ [(n, v)])
  | AEvent.snapshot :: es, inbox => inbox :: run_trace es []

/-- Modelled from the spec: the contents of the shared inbox after a
history of events has been replayed from the given starting inbox. -/
def inbox_after {α : Type} : List (AEvent α) → List (String × α) → List (String × α)
  | [], inbox => inbox
  | AEvent.cast n v :: es, inbox => inbox_after es (inbox ++ [(n, v)])
  | AEvent.snapshot :: es, _ => inbox_after es []

/-- Number of tally snapshots in a history. -/
def count_cycles {α : Type} : List (AEvent α) → Nat
  | [] => 0
  | AEvent.cast _ _ :: es => count_cycles es
  | AEvent.snapshot :: es => 1 + count_cycles es

/-! ## Behaviour priorities (spec 4.2; LoArbiter.H m_priorities / init_priorities / priority)

The header documents a map from behaviour name to normalized priority,
populated once when the arbiter thread starts.  The spec defines the
normalization: each raw configured priority is divided by the sum of
all raw priorities registered with the arbiter. -/

/-- Modelled from the spec: `Arbiter::init_priorities` (declared in
LoArbiter.H, body missing).  Builds the priority map from the raw
configured priorities by dividing each entry by the sum of all raw
entries. -/
def init_priorities (raw : List (String × ℚ)) : List (String × ℚ) :=
  let s := (raw.map (fun p => p.2)).sum
  raw.map (fun p => (p.1, p.2 / s))

/-- Modelled from the spec: `Arbiter::priority` (declared in
LoArbiter.H, body missing).  Looks the behaviour up in the normalized
priority map; absent behaviours read as zero. -/
def priority (pm : List (String × ℚ)) (name : String) : ℚ :=
  ((pm.lookup name).getD 0)

/-! ## SpeedArbiter (spec 4.3; LoSpeedArbiter.H)

A speed vote carries a maximum acceptable speed and a PWM value
(LoSpeedArbiter.H, inner class Vote).  The tally selects, with the
first-maximal semantics of std::max_element over compare_priorities,
the vote of the behaviour with the highest priority and issues its
speed and PWM directly; an empty vote list issues nothing. -/

/-- A SpeedArbiter vote: maximum acceptable speed (m/s) and motor PWM
(LoSpeedArbiter.H, inner class Vote). -/
structure SpeedVote where
  speed : ℚ
  pwm : Int
deriving DecidableEq, Repr

/-- Modelled from the spec: the first-maximal-element selection used by
`SpeedArbiter::motor_cmd` (body missing) via std::max_element with
`compare_priorities`: a later element replaces the current best only
when its priority is strictly greater, so ties are first-seen-wins. -/
def max_by_priority (pr : String → ℚ) :
    List (String × SpeedVote) → Option (String × SpeedVote)
  | [] => none
  | v :: vs =>
      match max_by_priority pr vs with
      | none => some v
      | some w => if pr v.1 < pr w.1 then some w else some v

/-- Modelled from the spec: `SpeedArbiter::motor_cmd` (declared in
LoSpeedArbiter.H, body missing).  Issues the {max_speed, pwm} carried
by the highest-priority vote; issues nothing when the (post-filter)
vote list is empty. -/
def speed_motor_cmd (pr : String → ℚ)
    (votes : List (String × SpeedVote)) : Option SpeedVote :=
  (max_by_priority pr votes).map (fun w => w.2)

/-! ## SpinArbiter (spec 4.5; LoSpinArbiter.H in LoBehavior.H.txt)

A spin vote is a single rotation amount in degrees.  The tally is the
priority-weighted sum of all spin amounts, clamped to [-360, 360]; an
empty vote list issues nothing. -/

/-- Clamp a rational to a closed interval. -/
def clamp (lo hi x : ℚ) : ℚ := max lo (min x hi)

/-- Modelled from the spec: `SpinArbiter::motor_cmd` (declared in
LoBehavior.H.txt, body missing).  Issues the priority-weighted sum of
the spin_amount votes clamped to [-360, 360]; issues nothing when the
vote list is empty. -/
def spin_motor_cmd (pr : String → ℚ) (votes : List (String × ℚ)) : Option ℚ :=
  match votes with
  | [] => none
  | _ =>
      some (clamp (-360) 360 ((votes.map (fun w => pr w.1 * w.2)).sum))

/-! ## TurnArbiter (spec 4.4; LoTurnArbiter.H)

A turn vote maps each arbiter-configured discrete turn direction to a
vote value; the VoteMap of LoTurnArbiter.H is embedded as an ordered
association list.  The direction set is derived from the configured
turn_max and turn_step parameters (LoTurnArbiter.H, inner class
Params): directions run from -turn_max to +turn_max in steps of
turn_step. -/

/-- The VoteMap of LoTurnArbiter.H: turn direction to vote value. -/
abbrev TurnVote := List (Int × ℚ)

/-- The arbiter-configured discrete turn direction set, derived from
turn_max and turn_step (LoTurnArbiter.H, Params documentation: max 30
and step 10 give -30, -20, -10, 0, 10, 20, 30). -/
def directions (tmax tstep : Int) : List Int :=
  (List.range (2 * tmax / tstep + 1).toNat).map (fun k => -tmax + k * tstep)

/-- Modelled from the spec: `TurnArbiter::Vote::operator[]` (declared
in LoTurnArbiter.H lines 133-136, body missing).  Accesses the vote
value for the supplied direction; if the turn direction is not
supported by the arbiter, an exception is thrown (embedded as
`Except.error`). -/
def vote_get (v : TurnVote) (d : Int) : Except String ℚ :=
  match v.lookup d with
  | some x => Except.ok x
  | none => Except.error "unsupported turn direction"

/-- Modelled from the spec: `TurnArbiter::Vote::vote` (LoTurnArbiter.H
lines 140-142: assignment through operator[]).  Stores the value for a
supported direction; throws for an unsupported one, never silently
inserting a new key. -/
def vote_set (v : TurnVote) (d : Int) (x : ℚ) : Except String TurnVote :=
  match v.lookup d with
  | some _ => Except.ok (v.map (fun p => if p.1 = d then (d, x) else p))
  | none => Except.error "unsupported turn direction"

/-- Reading a vote value for the tally: directions absent from a vote
read as zero (every properly constructed vote holds exactly the
configured direction set). -/
def value_at (v : TurnVote) (d : Int) : ℚ := (v.lookup d).getD 0

/-- Minimum of a list of rationals (0 for the empty list). -/
def vmin : List ℚ → ℚ
  | [] => 0
  | x :: xs => xs.foldl min x

/-- Maximum of a list of rationals (0 for the empty list). -/
def vmax : List ℚ → ℚ
  | [] => 0
  | x :: xs => xs.foldl max x

/-- Modelled from the spec: `TurnArbiter::Vote::normalize(min, max)`
(declared in LoTurnArbiter.H line 276, body missing).  Linearly
rescales every vote value into [-1, +1] using the supplied minimum and
maximum; when min equals max the result is defined as all-zero. -/
def turn_normalize (mn mx : ℚ) (v : TurnVote) : TurnVote :=
  if mx - mn = 0 then v.map (fun p => (p.1, 0))
  else v.map (fun p => (p.1, 2 * (p.2 - mn) / (mx - mn) - 1))

/-- Modelled from the spec: `TurnArbiter::Vote::normalize()` (declared
in LoTurnArbiter.H line 270, body missing).  Finds the observed minimum
and maximum vote values and rescales with them. -/
def turn_normalize_auto (v : TurnVote) : TurnVote :=
  turn_normalize (vmin (v.map (fun p => p.2))) (vmax (v.map (fun p => p.2))) v

/-- Modelled from the spec: one smoothed value of the Gaussian
smoothing pass of `TurnArbiter::motor_cmd` (body missing).  The value
at index i is the kernel-weighted average of the values within the
smoothing window around i; the Gaussian kernel itself is kept abstract
as a nonnegative weight function K of the distance in direction-steps,
since sigma and the window width enter only through it.  The distance
in direction-steps between two indices is `stepdist`. -/
def stepdist (j i : Nat) : Nat := ((j : Int) - (i : Int)).natAbs

/-- Modelled from the spec: one smoothed value, the kernel-weighted
average of the values within the smoothing window around index i (see
`stepdist` for the kernel distance). -/
def smooth_at (K : Nat → ℚ) (W : Nat) (vals : List ℚ) (i : Nat) : ℚ :=
  let nbrs := (List.range vals.length).filter (fun j => decide (stepdist j i ≤ W))
  let den := (nbrs.map (fun j => K (stepdist j i))).sum
  let num := (nbrs.map (fun j => K (stepdist j i) * vals.getD j 0)).sum
  num / den

/-- Modelled from the spec: the Gaussian smoothing pass applied to the
per-direction weighted sums. -/
def smooth (K : Nat → ℚ) (W : Nat) (vals : List ℚ) : List ℚ :=
  (List.range vals.length).map (smooth_at K W vals)

/-- Modelled from the spec: the per-direction priority-weighted raw
tally of `TurnArbiter::motor_cmd` (body missing): for each configured
direction d, the sum over all votes of priority(behaviour) times the
vote value for d. -/
def turn_raw (pr : String → ℚ) (votes : List (String × TurnVote)) (d : Int) : ℚ :=
  (votes.map (fun w => pr w.1 * value_at w.2 d)).sum

/-- Modelled from the spec: the tallied, smoothed, normalized
per-direction values computed by `TurnArbiter::motor_cmd` for one
cycle. -/
def turn_tally (pr : String → ℚ) (K : Nat → ℚ) (W : Nat) (tmax tstep : Int)
    (votes : List (String × TurnVote)) : TurnVote :=
  let dirs := directions tmax tstep
  let raw := dirs.map (turn_raw pr votes)
  turn_normalize_auto (dirs.zip (smooth K W raw))

/-- Modelled from the spec: direction selection of
`TurnArbiter::motor_cmd`: the direction with the maximum normalized
value, ties broken by preferring the direction closest to straight
ahead. -/
def pick_direction : TurnVote → Option Int
  | [] => none
  | p :: ps =>
      some ((ps.foldl
        (fun best q =>
          if best.2 < q.2 ∨ (best.2 = q.2 ∧ q.1.natAbs < best.1.natAbs)
          then q else best) p).1)

/-- Modelled from the spec: `TurnArbiter::motor_cmd` (declared in
LoTurnArbiter.H line 93, body missing).  Issues the winning direction,
or nothing when the (post-filter) vote list is empty. -/
def turn_motor_cmd (pr : String → ℚ) (K : Nat → ℚ) (W : Nat) (tmax tstep : Int)
    (votes : List (String × TurnVote)) : Option Int :=
  match votes with
  | [] => none
  | _ => pick_direction (turn_tally pr K W tmax tstep votes)

/-- Modelled from the spec: the helper `turn_vote_centered_at`
(declared in LoTurnArbiter.H line 380, body missing).  Produces the
triangular vote profile peaking at +1 at the requested angle and
falling off linearly by turn_step/turn_max per direction-step away,
which for a direction d is 1 - |d - angle|/turn_max. -/
def turn_vote_centered_at (tmax tstep : Int) (angle : Int) : TurnVote :=
  (directions tmax tstep).map
    (fun d => (d, 1 - ((d - angle).natAbs : ℚ) / (tmax : ℚ)))

/-! ## Robot actuator interface and empty-vote cycles (spec 4.2, 6, 7)

The Robot interface consumed by the arbiters exposes drive, turn and
spin commands.  A tally cycle whose filtered vote list is empty issues
no call at all, retaining the previously issued actuator state. -/

/-- The last-issued actuator state of the Robot interface. -/
structure RobotState where
  speed : ℚ
  pwm : Int
  turn_dir : ℚ
  spin_amt : ℚ
deriving DecidableEq, Repr

/-- One motor command of the Robot actuator interface (spec 6). -/
inductive RobotCmd : Type where
  | drive : ℚ → Int → RobotCmd
  | turn : ℚ → RobotCmd
  | spin : ℚ → RobotCmd
deriving DecidableEq, Repr

/-- Applying an optional motor command: no command leaves the
previously issued state unchanged. -/
def apply_cmd (r : RobotState) : Option RobotCmd → RobotState
  | none => r
  | some (RobotCmd.drive s p) => { r with speed := s, pwm := p }
  | some (RobotCmd.turn d) => { r with turn_dir := d }
  | some (RobotCmd.spin a) => { r with spin_amt := a }

/-- Modelled from the spec: one SpeedArbiter tally cycle acting on the
robot: freeze-filter the drained votes, tally, and issue the command
(if any) to the Robot. -/
def speed_cycle (pr : String → ℚ) (fs : FreezeState)
    (votes : List (String × SpeedVote)) (r : RobotState) : RobotState :=
  apply_cmd r ((speed_motor_cmd pr (filter_votes pr fs votes)).map
    (fun v => RobotCmd.drive v.speed v.pwm))

/-- Modelled from the spec: one SpinArbiter tally cycle acting on the
robot. -/
def spin_cycle (pr : String → ℚ) (fs : FreezeState)
    (votes : List (String × ℚ)) (r : RobotState) : RobotState :=
  apply_cmd r ((spin_motor_cmd pr (filter_votes pr fs votes)).map RobotCmd.spin)

/-- Modelled from the spec: one TurnArbiter tally cycle acting on the
robot. -/
def turn_cycle (pr : String → ℚ) (K : Nat → ℚ) (W : Nat) (tmax tstep : Int)
    (fs : FreezeState) (votes : List (String × TurnVote)) (r : RobotState) :
    RobotState :=
  apply_cmd r ((turn_motor_cmd pr K W tmax tstep (filter_votes pr fs votes)).map
    (fun d => RobotCmd.turn (d : ℚ)))

/-! ## Concrete scenario fixtures (spec 8, end-to-end scenarios) -/

/-- The end-to-end scenario priorities of spec 8: A has 0.6, B has 0.3,
C has 0.1. -/
def scenario_pr : String → ℚ :=
  fun n => if n = "A" then 6/10 else if n = "B" then 3/10 else 1/10

/-- The end-to-end scenario speed votes of spec 8: max_speed 0.2 for A,
0.4 for B, 0.5 for C (PWM values chosen arbitrarily). -/
def scenario_votes : List (String × SpeedVote) :=
  [("A", ⟨2/10, 10⟩), ("B", ⟨4/10, 20⟩), ("C", ⟨5/10, 30⟩)]

/-! ## Theorems -/

/-- Claim C9: for every behaviour name and every reachable arbiter
freeze state, calling unfreeze(name) twice in succession leaves the
arbiter in the same state as calling unfreeze(name) once. -/
theorem unfreeze_idempotent (fs : FreezeState) (name : String) :
    unfreeze (unfreeze fs name) name = unfreeze fs name := by
  cases fs with
  | none => rfl
  | some p =>
      obtain ⟨holder, thr⟩ := p
      by_cases h : holder = name
      · simp [unfreeze, h]
      · simp [unfreeze, h]

/-- Claim C1: at most one behaviour holds the freeze at any time; while
the arbiter is frozen by behaviour A, the tally step excludes every
vote cast by a behaviour whose priority is strictly less than
priority(A); unfreeze(B) for B distinct from A is a no-op; and
freeze(A) repeated by the holder is idempotent. -/
theorem freeze_invariant {α : Type} (pr : String → ℚ) (A : String)
    (fs : FreezeState) (votes : List (String × α))
    (hA : fs = some (A, pr A)) :
    (∀ fs2 : FreezeState, ∀ x y : String,
        is_frozen fs2 x = true → is_frozen fs2 y = true → x = y) ∧
    (∀ w ∈ votes, pr w.1 < pr A → w ∉ filter_votes pr fs votes) ∧
    (∀ B, B ≠ A → unfreeze fs B = fs) ∧
    freeze pr fs A = fs := by
  subst hA
  refine ⟨?_, ?_, ?_, ?_⟩
  · intro fs2 x y hx hy
    cases fs2 with
    | none => simp [is_frozen] at hx
    | some p =>
        obtain ⟨holder, thr⟩ := p
        simp [is_frozen] at hx hy
        rw [← hx, ← hy]
  · intro w _ hw hmem
    simp only [filter_votes, List.mem_filter, decide_eq_true_eq] at hmem
    exact absurd hmem.2 (not_le.mpr hw)
  · intro B hB
    have hAB : ¬ (A = B) := fun h => hB h.symm
    simp [unfreeze, hAB]
  · simp [freeze]

/-- Witness for claim C1 at a concrete input. -/
theorem freeze_invariant_witness :
    ((some ("A", (1 : ℚ))) : FreezeState) = some ("A", (fun _ : String => (1 : ℚ)) "A") ∧
    unfreeze (some ("A", (1 : ℚ))) "B" = some ("A", (1 : ℚ)) := by
  refine ⟨rfl, ?_⟩
  exact (freeze_invariant (α := Nat) (fun _ => 1) "A" (some ("A", 1)) [] rfl).2.2.1
    "B" (by decide)

/-- Claim C8: a tally cycle whose post-freeze-filter vote list is empty
issues no command to the Robot actuator interface, for each of the
three arbiters; the previously issued actuator state is retained
unchanged, and no stop or default command is substituted. -/
theorem empty_votes_retain_state (pr : String → ℚ) (K : Nat → ℚ) (W : Nat)
    (tmax tstep : Int) (fs : FreezeState)
    (sv : List (String × SpeedVote)) (pv : List (String × ℚ))
    (tv : List (String × TurnVote)) (r : RobotState)
    (hs : filter_votes pr fs sv = [])
    (hp : filter_votes pr fs pv = [])
    (ht : filter_votes pr fs tv = []) :
    speed_motor_cmd pr (filter_votes pr fs sv) = none ∧
    spin_motor_cmd pr (filter_votes pr fs pv) = none ∧
    turn_motor_cmd pr K W tmax tstep (filter_votes pr fs tv) = none ∧
    speed_cycle pr fs sv r = r ∧
    spin_cycle pr fs pv r = r ∧
    turn_cycle pr K W tmax tstep fs tv r = r := by
  rw [hs, hp, ht]
  refine ⟨rfl, rfl, rfl, ?_, ?_, ?_⟩
  · simp [speed_cycle, hs, speed_motor_cmd, max_by_priority, apply_cmd]
  · simp [spin_cycle, hp, spin_motor_cmd, apply_cmd]
  · simp [turn_cycle, ht, turn_motor_cmd, apply_cmd]

set_option maxHeartbeats 1000000 in
/-- Witness for claim C8 at a concrete input: an unfrozen arbiter with
no votes cast in the cycle. -/
theorem empty_votes_retain_state_witness :
    filter_votes (fun _ => (1 : ℚ)) none ([] : List (String × SpeedVote)) = [] ∧
    speed_cycle (fun _ => (1 : ℚ)) none [] ⟨1, 2, 3, 4⟩ = ⟨1, 2, 3, 4⟩ := by
  refine ⟨rfl, ?_⟩
  exact (empty_votes_retain_state (fun _ => 1) (fun _ => 1) 1 6 3 none [] [] []
    ⟨1, 2, 3, 4⟩ rfl rfl rfl).2.2.2.1

/-- Claim C6: the issued spin command equals the priority-weighted sum
of all the spin_amount votes clamped to [-360, 360], for every
non-empty vote list, regardless of vote magnitude or voter count. -/
theorem spin_weighted_sum_clamped (pr : String → ℚ)
    (votes : List (String × ℚ)) (h : votes ≠ []) :
    ∃ c, spin_motor_cmd pr votes = some c ∧
      c = clamp (-360) 360 ((votes.map (fun w => pr w.1 * w.2)).sum) ∧
      -360 ≤ c ∧ c ≤ 360 := by
  cases votes with
  | nil => exact absurd rfl h
  | cons v vs =>
      refine ⟨_, rfl, rfl, le_max_left _ _, ?_⟩
      exact max_le (by norm_num) (le_trans (min_le_right _ _) (by norm_num))

/-- Witness for claim C6 at a concrete input: a single voter whose vote
overshoots the clamp range. -/
theorem spin_weighted_sum_clamped_witness :
    ([("A", (500 : ℚ))] : List (String × ℚ)) ≠ [] ∧
    ∃ c, spin_motor_cmd (fun _ => 1) [("A", (500 : ℚ))] = some c ∧
      c = clamp (-360) 360 (([("A", (500 : ℚ))].map (fun w => (fun _ : String => (1 : ℚ)) w.1 * w.2)).sum) ∧
      -360 ≤ c ∧ c ≤ 360 := by
  refine ⟨by simp, ?_⟩
  exact spin_weighted_sum_clamped (fun _ => 1) [("A", 500)] (by simp)

/-- Looking a key up in the normalized priority map is the raw lookup
with its value divided by the normalization constant. -/
theorem lookup_div_values (l : List (String × ℚ)) (s : ℚ) (n : String) :
    (l.map (fun p => (p.1, p.2 / s))).lookup n = (l.lookup n).map (fun x => x / s) := by
  induction l with
  | nil => rfl
  | cons p ps ih =>
      by_cases h : n = p.1
      · have hb : (n == p.1) = true := beq_iff_eq.mpr h
        simp [List.lookup, hb]
      · have hb : (n == p.1) = false := beq_eq_false_iff_ne.mpr h
        simp [List.lookup, hb, ih]

/-- Claim C7: priority(name) returns the raw configured priority
divided by the sum of all raw priorities registered with the arbiter,
and the normalized priorities of all behaviours sum to 1. -/
theorem priorities_normalized (raw : List (String × ℚ))
    (hs : (raw.map (fun p => p.2)).sum ≠ 0) :
    (∀ n r, raw.lookup n = some r →
        priority (init_priorities raw) n = r / (raw.map (fun p => p.2)).sum) ∧
    ((init_priorities raw).map (fun p => p.2)).sum = 1 := by
  constructor
  · intro n r hl
    simp [priority, init_priorities, lookup_div_values, hl]
  · have hmap : (init_priorities raw).map (fun p => p.2)
        = (raw.map (fun p => p.2)).map (fun x => x / (raw.map (fun p => p.2)).sum) := by
      simp [init_priorities, List.map_map]
    rw [hmap]
    have hsum : ∀ (l : List ℚ) (c : ℚ), (l.map (fun x => x / c)).sum = l.sum / c := by
      intro l c
      induction l with
      | nil => simp
      | cons x xs ih => simp [ih, add_div]
    rw [hsum]
    exact div_self hs

/-- Witness for claim C7 at a concrete input: raw priorities 3 and 2
for behaviours A and B. -/
theorem priorities_normalized_witness :
    (([("A", (3 : ℚ)), ("B", 2)].map (fun p => p.2)).sum ≠ 0) ∧
    ((init_priorities [("A", (3 : ℚ)), ("B", 2)]).map (fun p => p.2)).sum = 1 := by
  refine ⟨by norm_num, ?_⟩
  exact (priorities_normalized [("A", 3), ("B", 2)] (by norm_num)).2

/-- The first-maximal-element property of `max_by_priority`: the
selected vote has maximal priority, and every vote strictly before it
in the list has strictly smaller priority (first-seen-wins on ties). -/
theorem max_by_priority_first (pr : String → ℚ)
    (l : List (String × SpeedVote)) (v : String × SpeedVote) :
    ∃ (i : ℕ) (hi : i < (v :: l).length),
      max_by_priority pr (v :: l) = some ((v :: l).get ⟨i, hi⟩) ∧
      (∀ (j : ℕ) (hj : j < (v :: l).length),
          pr ((v :: l).get ⟨j, hj⟩).1 ≤ pr ((v :: l).get ⟨i, hi⟩).1) ∧
      (∀ (j : ℕ) (hj : j < (v :: l).length), j < i →
          pr ((v :: l).get ⟨j, hj⟩).1 < pr ((v :: l).get ⟨i, hi⟩).1) := by
  induction l generalizing v with
  | nil =>
      refine ⟨0, by simp, rfl, ?_, ?_⟩
      · intro j hj
        have hj0 : j = 0 := by simpa using Nat.lt_one_iff.mp (by simpa using hj)
        subst hj0
        exact le_refl _
      · intro j hj hji
        exact absurd hji (Nat.not_lt_zero j)
  | cons w ws ih =>
      obtain ⟨i, hi, heq, hmax, hfirst⟩ := ih w
      have step : max_by_priority pr (v :: w :: ws)
          = match max_by_priority pr (w :: ws) with
            | none => some v
            | some u => if pr v.1 < pr u.1 then some u else some v := rfl
      by_cases hc : pr v.1 < pr ((w :: ws).get ⟨i, hi⟩).1
      · refine ⟨i + 1, by simpa using Nat.succ_lt_succ hi, ?_, ?_, ?_⟩
        · rw [step, heq]
          show (if pr v.1 < pr ((w :: ws).get ⟨i, hi⟩).1
                then some ((w :: ws).get ⟨i, hi⟩) else some v) = _
          rw [if_pos hc]
          rfl
        · intro j hj
          cases j with
          | zero => exact le_of_lt hc
          | succ j => exact hmax j (by simpa using hj)
        · intro j hj hji
          cases j with
          | zero => exact hc
          | succ j => exact hfirst j (by simpa using hj) (Nat.lt_of_succ_lt_succ hji)
      · refine ⟨0, by simp, ?_, ?_, ?_⟩
        · rw [step, heq]
          show (if pr v.1 < pr ((w :: ws).get ⟨i, hi⟩).1
                then some ((w :: ws).get ⟨i, hi⟩) else some v) = _
          rw [if_neg hc]
          rfl
        · intro j hj
          cases j with
          | zero => exact le_refl _
          | succ j => exact le_trans (hmax j (by simpa using hj)) (not_lt.mp hc)
        · intro j hj hji
          exact absurd hji (Nat.not_lt_zero j)

/-- Claim C3: SpeedArbiter issues exactly the {max_speed, pwm} of the
vote cast by the behaviour with the highest priority among the voters,
ties broken first-seen-wins (never a blend); in the spec scenario with
priorities {A 0.6, B 0.3, C 0.1} and speeds {A 0.2, B 0.4, C 0.5}, the
issued command is the A vote of 0.2 m/s. -/
theorem speed_winner_take_all (pr : String → ℚ) (v : String × SpeedVote)
    (vs : List (String × SpeedVote)) :
    (∃ (i : ℕ) (hi : i < (v :: vs).length),
      speed_motor_cmd pr (v :: vs) = some ((v :: vs).get ⟨i, hi⟩).2 ∧
      (∀ (j : ℕ) (hj : j < (v :: vs).length),
          pr ((v :: vs).get ⟨j, hj⟩).1 ≤ pr ((v :: vs).get ⟨i, hi⟩).1) ∧
      (∀ (j : ℕ) (hj : j < (v :: vs).length), j < i →
          pr ((v :: vs).get ⟨j, hj⟩).1 < pr ((v :: vs).get ⟨i, hi⟩).1)) ∧
    speed_motor_cmd scenario_pr scenario_votes = some ⟨2/10, 10⟩ := by
  constructor
  · obtain ⟨i, hi, heq, hmax, hfirst⟩ := max_by_priority_first pr vs v
    exact ⟨i, hi, by simp [speed_motor_cmd, heq], hmax, hfirst⟩
  · have pA : scenario_pr "A" = 6/10 := rfl
    have pB : scenario_pr "B" = 3/10 := rfl
    have pC : scenario_pr "C" = 1/10 := rfl
    norm_num [speed_motor_cmd, max_by_priority, scenario_votes, pA, pB, pC]

/-- Witness for claim C3 recording the concrete spec scenario. -/
theorem speed_winner_take_all_witness :
    speed_motor_cmd scenario_pr scenario_votes = some ⟨2/10, 10⟩ :=
  (speed_winner_take_all (fun _ => 1) ("X", ⟨0, 0⟩) []).2

/-- Replaying a concatenated history splits into the cycles of the
first part followed by the cycles of the second part started from the
inbox the first part leaves behind. -/
theorem run_trace_append {α : Type} (a b : List (AEvent α))
    (ib : List (String × α)) :
    run_trace (a ++ b) ib = run_trace a ib ++ run_trace b (inbox_after a ib) := by
  induction a generalizing ib with
  | nil => rfl
  | cons e es ih =>
      cases e with
      | cast n v => simp [run_trace, inbox_after, ih]
      | snapshot => simp [run_trace, inbox_after, ih]

/-- A replay produces one tallied list per snapshot event. -/
theorem run_trace_length {α : Type} (t : List (AEvent α))
    (ib : List (String × α)) :
    (run_trace t ib).length = count_cycles t := by
  induction t generalizing ib with
  | nil => rfl
  | cons e es ih =>
      cases e with
      | cast n v => simp [run_trace, count_cycles, ih]
      | snapshot => simp [run_trace, count_cycles, ih, Nat.add_comm]

/-- Every pending inbox entry is contained in the first list tallied
after it, provided at least one snapshot remains in the history. -/
theorem run_trace_head_contains {α : Type} (t : List (AEvent α))
    (ib : List (String × α)) (h : 1 ≤ count_cycles t) :
    ∃ l, (run_trace t ib)[0]? = some l ∧ ∀ x ∈ ib, x ∈ l := by
  induction t generalizing ib with
  | nil => simp [count_cycles] at h
  | cons e es ih =>
      cases e with
      | cast n v =>
          obtain ⟨l, hl, hsub⟩ := ih (ib ++ [(n, v)])
            (by simpa [count_cycles] using h)
          exact ⟨l, hl, fun x hx => hsub x (List.mem_append_left _ hx)⟩
      | snapshot => exact ⟨ib, by simp [run_trace], fun x hx => hx⟩

/-- Claim C2: a vote cast after the cycle-N snapshot of the shared
inbox is taken does not appear in any list tallied in cycles 0
through N (those lists are exactly what they would be without the
cast), and does appear in the list tallied in cycle N+1: no cast vote
is lost or applied early.  Cycles are numbered so that the k-th
snapshot event produces the list tallied in cycle k; a cast occurring
while motor_cmd for cycle N executes is an event after the (N+1)-th
snapshot in this atomic-interleaving model. -/
theorem vote_snapshot_isolation {α : Type} (t1 t2 : List (AEvent α))
    (n : String) (v : α) (N : Nat)
    (h1 : count_cycles t1 = N + 1) (h2 : 1 ≤ count_cycles t2) :
    (∀ j, j ≤ N →
        (run_trace (t1 ++ AEvent.cast n v :: t2) [])[j]?
          = (run_trace (t1 ++ t2) [])[j]?) ∧
    (∃ l, (run_trace (t1 ++ AEvent.cast n v :: t2) [])[N + 1]? = some l
          ∧ (n, v) ∈ l) := by
  have len1 : (run_trace t1 ([] : List (String × α))).length = N + 1 := by
    rw [run_trace_length, h1]
  have ha := run_trace_append t1 (AEvent.cast n v :: t2) ([] : List (String × α))
  have hb := run_trace_append t1 t2 ([] : List (String × α))
  constructor
  · intro j hj
    rw [ha, hb, List.getElem?_append_left (by omega), List.getElem?_append_left (by omega)]
  · rw [ha]
    have hc : run_trace (AEvent.cast n v :: t2) (inbox_after t1 [])
        = run_trace t2 (inbox_after t1 [] ++ [(n, v)]) := rfl
    rw [hc]
    obtain ⟨l, hl, hsub⟩ :=
      run_trace_head_contains t2 (inbox_after t1 [] ++ [(n, v)]) h2
    refine ⟨l, ?_, hsub (n, v) (by simp)⟩
    rw [List.getElem?_append_right (by omega)]
    simpa [len1] using hl

/-- Witness for claim C2 at a concrete input: one snapshot, then a cast
of vote 5 by behaviour b, then another snapshot; the vote shows up in
cycle 1. -/
theorem vote_snapshot_isolation_witness :
    count_cycles ([AEvent.snapshot] : List (AEvent Nat)) = 0 + 1 ∧
    1 ≤ count_cycles ([AEvent.snapshot] : List (AEvent Nat)) ∧
    ∃ l, (run_trace ([AEvent.snapshot] ++ AEvent.cast "b" 5 :: [AEvent.snapshot])
            ([] : List (String × Nat)))[0 + 1]? = some l ∧ ("b", 5) ∈ l := by
  refine ⟨rfl, by decide, ?_⟩
  exact (vote_snapshot_isolation [AEvent.snapshot] [AEvent.snapshot] "b" 5 0
    rfl (by decide)).2

/-- Folding min never rises above the seed. -/
theorem foldl_min_le_init (l : List ℚ) (a : ℚ) : l.foldl min a ≤ a := by
  induction l generalizing a with
  | nil => exact le_refl a
  | cons x xs ih => exact le_trans (ih (min a x)) (min_le_left a x)

/-- Folding min is a lower bound of the elements. -/
theorem foldl_min_le_mem (l : List ℚ) (a x : ℚ) (hx : x ∈ l) :
    l.foldl min a ≤ x := by
  induction l generalizing a with
  | nil => cases hx
  | cons y ys ih =>
      rcases List.mem_cons.mp hx with h | h
      · subst h
        exact le_trans (foldl_min_le_init ys (min a x)) (min_le_right a x)
      · exact ih (min a y) h

/-- Folding max never falls below the seed. -/
theorem foldl_max_ge_init (l : List ℚ) (a : ℚ) : a ≤ l.foldl max a := by
  induction l generalizing a with
  | nil => exact le_refl a
  | cons x xs ih => exact le_trans (le_max_left a x) (ih (max a x))

/-- Folding max is an upper bound of the elements. -/
theorem foldl_max_ge_mem (l : List ℚ) (a x : ℚ) (hx : x ∈ l) :
    x ≤ l.foldl max a := by
  induction l generalizing a with
  | nil => cases hx
  | cons y ys ih =>
      rcases List.mem_cons.mp hx with h | h
      · subst h
        exact le_trans (le_max_right a x) (foldl_max_ge_init ys (max a x))
      · exact ih (max a y) h

/-- The observed minimum is a lower bound. -/
theorem vmin_le (l : List ℚ) (x : ℚ) (hx : x ∈ l) : vmin l ≤ x := by
  cases l with
  | nil => cases hx
  | cons y ys =>
      rcases List.mem_cons.mp hx with h | h
      · subst h
        exact foldl_min_le_init ys x
      · exact foldl_min_le_mem ys y x h

/-- The observed maximum is an upper bound. -/
theorem le_vmax (l : List ℚ) (x : ℚ) (hx : x ∈ l) : x ≤ vmax l := by
  cases l with
  | nil => cases hx
  | cons y ys =>
      rcases List.mem_cons.mp hx with h | h
      · subst h
        exact foldl_max_ge_init ys x
      · exact foldl_max_ge_mem ys y x h

/-- Folding min over a constant list returns the constant. -/
theorem foldl_min_const (l : List ℚ) (c : ℚ) (h : ∀ x ∈ l, x = c) :
    l.foldl min c = c := by
  induction l with
  | nil => rfl
  | cons y ys ih =>
      have hy : y = c := h y (List.mem_cons_self y ys)
      have : List.foldl min (min c y) ys = List.foldl min c ys := by
        rw [hy, min_self]
      rw [List.foldl_cons, this]
      exact ih (fun x hx => h x (List.mem_cons_of_mem y hx))

/-- Folding max over a constant list returns the constant. -/
theorem foldl_max_const (l : List ℚ) (c : ℚ) (h : ∀ x ∈ l, x = c) :
    l.foldl max c = c := by
  induction l with
  | nil => rfl
  | cons y ys ih =>
      have hy : y = c := h y (List.mem_cons_self y ys)
      have : List.foldl max (max c y) ys = List.foldl max c ys := by
        rw [hy, max_self]
      rw [List.foldl_cons, this]
      exact ih (fun x hx => h x (List.mem_cons_of_mem y hx))

/-- The observed minimum of a non-empty constant list is the constant. -/
theorem vmin_const (l : List ℚ) (c : ℚ) (h : ∀ x ∈ l, x = c) (hne : l ≠ []) :
    vmin l = c := by
  cases l with
  | nil => exact absurd rfl hne
  | cons y ys =>
      have hy : y = c := h y (List.mem_cons_self y ys)
      show List.foldl min y ys = c
      rw [hy]
      exact foldl_min_const ys c (fun x hx => h x (List.mem_cons_of_mem y hx))

/-- The observed maximum of a non-empty constant list is the constant. -/
theorem vmax_const (l : List ℚ) (c : ℚ) (h : ∀ x ∈ l, x = c) (hne : l ≠ []) :
    vmax l = c := by
  cases l with
  | nil => exact absurd rfl hne
  | cons y ys =>
      have hy : y = c := h y (List.mem_cons_self y ys)
      show List.foldl max y ys = c
      rw [hy]
      exact foldl_max_const ys c (fun x hx => h x (List.mem_cons_of_mem y hx))

/-- Values normalized with the observed minimum and maximum land in
[-1, +1]. -/
theorem turn_normalize_auto_bounds (v : TurnVote) (p : Int × ℚ)
    (hp : p ∈ turn_normalize_auto v) : -1 ≤ p.2 ∧ p.2 ≤ 1 := by
  unfold turn_normalize_auto turn_normalize at hp
  by_cases h0 : vmax (v.map (fun q => q.2)) - vmin (v.map (fun q => q.2)) = 0
  · rw [if_pos h0] at hp
    obtain ⟨q, hq, rfl⟩ := List.mem_map.mp hp
    norm_num
  · rw [if_neg h0] at hp
    obtain ⟨q, hq, rfl⟩ := List.mem_map.mp hp
    have hqv : q.2 ∈ v.map (fun r => r.2) := List.mem_map.mpr ⟨q, hq, rfl⟩
    have hmn : vmin (v.map (fun r => r.2)) ≤ q.2 := vmin_le _ _ hqv
    have hmx : q.2 ≤ vmax (v.map (fun r => r.2)) := le_vmax _ _ hqv
    have hle : (0 : ℚ) ≤ vmax (v.map (fun r => r.2)) - vmin (v.map (fun r => r.2)) := by
      linarith
    have hpos : 0 < vmax (v.map (fun r => r.2)) - vmin (v.map (fun r => r.2)) :=
      lt_of_le_of_ne hle (Ne.symm h0)
    have hr0 : 0 ≤ (q.2 - vmin (v.map (fun r => r.2)))
        / (vmax (v.map (fun r => r.2)) - vmin (v.map (fun r => r.2))) :=
      div_nonneg (by linarith) (le_of_lt hpos)
    have hr1 : (q.2 - vmin (v.map (fun r => r.2)))
        / (vmax (v.map (fun r => r.2)) - vmin (v.map (fun r => r.2))) ≤ 1 :=
      (div_le_one hpos).mpr (by linarith)
    constructor
    · simp only [mul_div_assoc]
      linarith
    · simp only [mul_div_assoc]
      linarith

/-- Normalizing with the observed minimum and maximum sends a constant
vote value list to all-zero. -/
theorem turn_normalize_auto_const (v : TurnVote) (c : ℚ)
    (h : ∀ p ∈ v, p.2 = c) : ∀ p ∈ turn_normalize_auto v, p.2 = 0 := by
  intro p hp
  by_cases hv : v = []
  · subst hv
    simp [turn_normalize_auto, turn_normalize] at hp
  · have hvals : ∀ x ∈ v.map (fun q => q.2), x = c := by
      intro x hx
      obtain ⟨q, hq, rfl⟩ := List.mem_map.mp hx
      exact h q hq
    have hnem : v.map (fun q => q.2) ≠ [] := by
      simpa [List.map_eq_nil_iff] using hv
    have h0 : vmax (v.map (fun q => q.2)) - vmin (v.map (fun q => q.2)) = 0 := by
      rw [vmin_const _ c hvals hnem, vmax_const _ c hvals hnem, sub_self]
    unfold turn_normalize_auto turn_normalize at hp
    rw [if_pos h0] at hp
    obtain ⟨q, hq, rfl⟩ := List.mem_map.mp hp
    rfl

/-- Smoothing a constant value list with a nonnegative kernel whose
center weight is positive returns the constant everywhere. -/
theorem smooth_const (K : Nat → ℚ) (W : Nat) (vals : List ℚ) (c : ℚ)
    (hK : ∀ k, 0 ≤ K k) (hK0 : 0 < K 0) (h : ∀ x ∈ vals, x = c) :
    ∀ y ∈ smooth K W vals, y = c := by
  intro y hy
  unfold smooth at hy
  obtain ⟨i, hi, rfl⟩ := List.mem_map.mp hy
  have hilen : i < vals.length := List.mem_range.mp hi
  unfold smooth_at
  have hval : ∀ j ∈ (List.range vals.length).filter
      (fun j => decide (stepdist j i ≤ W)), vals.getD j 0 = c := by
    intro j hj
    have hjlen : j < vals.length := List.mem_range.mp (List.mem_filter.mp hj).1
    have hget : vals.getD j 0 = vals.get ⟨j, hjlen⟩ := by
      simp [List.getD_eq_getElem?_getD, List.getElem?_eq_getElem hjlen]
    rw [hget]
    exact h _ (vals.get_mem _ _)
  have hmap : ((List.range vals.length).filter
        (fun j => decide (stepdist j i ≤ W))).map
          (fun j => K (stepdist j i) * vals.getD j 0)
      = ((List.range vals.length).filter
        (fun j => decide (stepdist j i ≤ W))).map
          (fun j => K (stepdist j i) * c) :=
    List.map_congr_left (fun j hj => by rw [hval j hj])
  have hfactor : (((List.range vals.length).filter
        (fun j => decide (stepdist j i ≤ W))).map
          (fun j => K (stepdist j i) * c)).sum
      = (((List.range vals.length).filter
        (fun j => decide (stepdist j i ≤ W))).map
          (fun j => K (stepdist j i))).sum * c :=
    List.sum_map_mul_right _ _ _
  have hin : i ∈ (List.range vals.length).filter
      (fun j => decide (stepdist j i ≤ W)) := by
    refine List.mem_filter.mpr ⟨List.mem_range.mpr hilen, ?_⟩
    simp [stepdist]
  have hKin : K 0 ∈ ((List.range vals.length).filter
      (fun j => decide (stepdist j i ≤ W))).map (fun j => K (stepdist j i)) := by
    refine List.mem_map.mpr ⟨i, hin, ?_⟩
    simp [stepdist]
  have hden : 0 < (((List.range vals.length).filter
      (fun j => decide (stepdist j i ≤ W))).map (fun j => K (stepdist j i))).sum := by
    refine lt_of_lt_of_le hK0 (List.single_le_sum ?_ _ hKin)
    intro x hx
    obtain ⟨j, _, rfl⟩ := List.mem_map.mp hx
    exact hK _
  show (((List.range vals.length).filter
      (fun j => decide (stepdist j i ≤ W))).map
        (fun j => K (stepdist j i) * vals.getD j 0)).sum
    / (((List.range vals.length).filter
      (fun j => decide (stepdist j i ≤ W))).map
        (fun j => K (stepdist j i))).sum = c
  rw [hmap, hfactor, mul_comm, mul_div_assoc, div_self (ne_of_gt hden), mul_one]

/-- Claim C4: for every vote set, after the priority-weighted sum per
direction and Gaussian smoothing across neighbouring directions,
normalization with the observed minimum and maximum of the cycle
leaves every per-direction output value within [-1, +1]; and when all
raw weighted sums are equal (so the observed minimum equals the
maximum), the normalized result is all-zero. -/
theorem turn_tally_normalized (pr : String → ℚ) (K : Nat → ℚ) (W : Nat)
    (tmax tstep : Int) (votes : List (String × TurnVote))
    (hK : ∀ k, 0 ≤ K k) (hK0 : 0 < K 0) :
    (∀ p ∈ turn_tally pr K W tmax tstep votes, -1 ≤ p.2 ∧ p.2 ≤ 1) ∧
    ((∀ d1 ∈ directions tmax tstep, ∀ d2 ∈ directions tmax tstep,
        turn_raw pr votes d1 = turn_raw pr votes d2) →
      ∀ p ∈ turn_tally pr K W tmax tstep votes, p.2 = 0) := by
  constructor
  · intro p hp
    unfold turn_tally at hp
    exact turn_normalize_auto_bounds _ p hp
  · intro hall p hp
    unfold turn_tally at hp
    rcases hdirs : directions tmax tstep with _ | ⟨d0, ds⟩
    · rw [hdirs] at hp
      simp [turn_normalize_auto, turn_normalize] at hp
    · rw [hdirs] at hp
      have hraw : ∀ x ∈ (d0 :: ds).map (turn_raw pr votes),
          x = turn_raw pr votes d0 := by
        intro x hx
        obtain ⟨d, hdmem, rfl⟩ := List.mem_map.mp hx
        exact hall d (hdirs ▸ hdmem) d0 (hdirs ▸ List.mem_cons_self d0 ds)
      have hsm := smooth_const K W ((d0 :: ds).map (turn_raw pr votes))
        (turn_raw pr votes d0) hK hK0 hraw
      have hzip : ∀ q ∈ (d0 :: ds).zip
          (smooth K W ((d0 :: ds).map (turn_raw pr votes))),
          q.2 = turn_raw pr votes d0 := by
        intro q hq
        obtain ⟨a, b⟩ := q
        exact hsm b (List.of_mem_zip hq).2
      exact turn_normalize_auto_const _ _ hzip p hp

/-- Witness for claim C4 at a concrete input: one behaviour voting a
triangular profile, unit priorities, unit kernel, window width 1. -/
theorem turn_tally_normalized_witness :
    (∀ k : Nat, (0 : ℚ) ≤ (fun _ : Nat => (1 : ℚ)) k) ∧
    (0 : ℚ) < (fun _ : Nat => (1 : ℚ)) 0 ∧
    (∀ p ∈ turn_tally (fun _ => 1) (fun _ => 1) 1 6 3
        [("x", turn_vote_centered_at 6 3 3)], -1 ≤ p.2 ∧ p.2 ≤ 1) := by
  refine ⟨fun k => by norm_num, by norm_num, ?_⟩
  exact (turn_tally_normalized (fun _ => 1) (fun _ => 1) 1 6 3
    [("x", turn_vote_centered_at 6 3 3)] (fun k => by norm_num) (by norm_num)).1

/-- Looking up a key in an association list built by mapping a value
function over a key list gives the function at that key. -/
theorem lookup_map_self (dirs : List Int) (f : Int → ℚ) (d : Int)
    (hd : d ∈ dirs) : (dirs.map (fun x => (x, f x))).lookup d = some (f d) := by
  induction dirs with
  | nil => cases hd
  | cons a as ih =>
      by_cases h : d = a
      · subst h
        simp [List.lookup]
      · have hb : (d == a) = false := beq_eq_false_iff_ne.mpr h
        have hmem : d ∈ as := by
          rcases List.mem_cons.mp hd with h1 | h1
          · exact absurd h1 h
          · exact h1
        simp [List.lookup, hb, ih hmem]

/-- Claim C5: turn_vote_centered_at(A) assigns +1 to direction A and,
to each configured direction k steps away from A, the value
1 - k * (turn_step / turn_max); with turn_max 6 and turn_step 3 the
vote centered at 3 assigns 0.5 to 6, 1.0 to 3, 0.5 to 0, 0.0 to -3 and
-0.5 to -6. -/
theorem turn_vote_triangular (tmax tstep : Int) (angle : Int)
    (hangle : angle ∈ directions tmax tstep) :
    (turn_vote_centered_at tmax tstep angle).lookup angle = some 1 ∧
    (∀ d ∈ directions tmax tstep, ∀ k : ℕ,
        (d - angle).natAbs = k * tstep.natAbs →
        (turn_vote_centered_at tmax tstep angle).lookup d
          = some (1 - (k : ℚ) * ((tstep.natAbs : ℚ) / (tmax : ℚ)))) ∧
    turn_vote_centered_at 6 3 3
      = [(-6, -1/2), (-3, 0), (0, 1/2), (3, 1), (6, 1/2)] := by
  refine ⟨?_, ?_, ?_⟩
  · rw [turn_vote_centered_at, lookup_map_self _ _ _ hangle]
    simp
  · intro d hd k hk
    rw [turn_vote_centered_at, lookup_map_self _ _ _ hd, hk]
    congr 1
    push_cast
    ring
  · have hdirs : directions 6 3 = [-6, -3, 0, 3, 6] := by decide
    rw [turn_vote_centered_at, hdirs]
    norm_num

/-- Witness for claim C5 at the concrete spec configuration. -/
theorem turn_vote_triangular_witness :
    (3 : Int) ∈ directions 6 3 ∧
    (turn_vote_centered_at 6 3 3).lookup 3 = some 1 := by
  refine ⟨by decide, ?_⟩
  exact (turn_vote_triangular 6 3 3 (by decide)).1

/-- Every key present in an association list looks up to some value. -/
theorem lookup_some_of_mem_keys (v : TurnVote) (d : Int)
    (hd : d ∈ v.map (fun p => p.1)) : ∃ y, v.lookup d = some y := by
  induction v with
  | nil => simp at hd
  | cons p ps ih =>
      by_cases h : d = p.1
      · exact ⟨p.2, by simp [List.lookup, beq_iff_eq.mpr h]⟩
      · have hd2 : d ∈ ps.map (fun p => p.1) := by
          rw [List.map_cons] at hd
          rcases List.mem_cons.mp hd with h1 | h1
          · exact absurd h1 h
          · exact h1
        obtain ⟨y, hy⟩ := ih hd2
        exact ⟨y, by simp [List.lookup, beq_eq_false_iff_ne.mpr h, hy]⟩

/-- A key absent from an association list looks up to none. -/
theorem lookup_none_of_not_mem_keys (v : TurnVote) (d : Int)
    (hd : d ∉ v.map (fun p => p.1)) : v.lookup d = none := by
  induction v with
  | nil => rfl
  | cons p ps ih =>
      have h1 : d ≠ p.1 := fun h => hd (by simp [h])
      have h2 : d ∉ ps.map (fun p => p.1) := fun h => hd (by simp [h])
      simp [List.lookup, beq_eq_false_iff_ne.mpr h1, ih h2]

/-- Updating the value stored at a present key makes it look up to the
new value. -/
theorem lookup_update_self (v : TurnVote) (d : Int) (x : ℚ)
    (hd : d ∈ v.map (fun p => p.1)) :
    (v.map (fun p => if p.1 = d then (d, x) else p)).lookup d = some x := by
  induction v with
  | nil => simp at hd
  | cons p ps ih =>
      rw [List.map_cons]
      by_cases h : p.1 = d
      · rw [if_pos h]
        simp [List.lookup]
      · rw [if_neg h]
        have h1 : (d == p.1) = false :=
          beq_eq_false_iff_ne.mpr (fun he => h he.symm)
        have hd2 : d ∈ ps.map (fun p => p.1) := by
          rw [List.map_cons] at hd
          rcases List.mem_cons.mp hd with h2 | h2
          · exact absurd h2.symm h
          · exact h2
        simp [List.lookup, h1, ih hd2]

/-- Updating the value stored at a key never changes the key set. -/
theorem keys_update (v : TurnVote) (d : Int) (x : ℚ) :
    (v.map (fun p => if p.1 = d then (d, x) else p)).map (fun p => p.1)
      = v.map (fun p => p.1) := by
  rw [List.map_map]
  apply List.map_congr_left
  intro p _
  by_cases h : p.1 = d
  · simp [h]
  · simp [h]

/-- Claim C10: accessing a turn vote at a direction in the configured
set returns the stored value and assignment through it stores the new
value without changing the key set; accessing a direction outside the
configured set throws, so a vote for an unsupported direction is never
silently inserted or ignored. -/
theorem vote_access_error_handling (v : TurnVote) (d : Int) (x : ℚ) :
    (d ∈ v.map (fun p => p.1) →
      ∃ y, v.lookup d = some y ∧ vote_get v d = Except.ok y ∧
        ∃ v2, vote_set v d x = Except.ok v2 ∧ v2.lookup d = some x ∧
          v2.map (fun p => p.1) = v.map (fun p => p.1)) ∧
    (d ∉ v.map (fun p => p.1) →
      vote_get v d = Except.error "unsupported turn direction" ∧
      vote_set v d x = Except.error "unsupported turn direction") := by
  constructor
  · intro hd
    obtain ⟨y, hy⟩ := lookup_some_of_mem_keys v d hd
    exact ⟨y, hy, by simp [vote_get, hy],
      ⟨_, by simp [vote_set, hy], lookup_update_self v d x hd, keys_update v d x⟩⟩
  · intro hd
    have hn := lookup_none_of_not_mem_keys v d hd
    exact ⟨by simp [vote_get, hn], by simp [vote_set, hn]⟩

/-- Witness for claim C10 at a concrete input: direction 7 is not among
the configured directions 0 and 3, so access throws. -/
theorem vote_access_error_handling_witness :
    ((7 : Int) ∉ ([((0 : Int), (1 : ℚ)), (3, 2)] : TurnVote).map (fun p => p.1)) ∧
    vote_get ([((0 : Int), (1 : ℚ)), (3, 2)] : TurnVote) 7
      = Except.error "unsupported turn direction" := by
  refine ⟨by simp, ?_⟩
  exact ((vote_access_error_handling [((0 : Int), (1 : ℚ)), (3, 2)] 7 5).2 (by simp)).1

end LoBot
